import Mathlib

/-!
Shallow embedding of `src/tree.hpp`: an unbalanced binary search tree
(`BinaryTree` / `BinaryTreeNode`) with an explicit-stack in-order iterator
(`BinaryTreeIterator`).

Pointers are modelled by an inductive tree: `nil` is a null
`BinaryTreeNode<K,V>*`, `node key value left right` is a node object
together with the subtree it owns.  The key type `K` carries a linear
order (the spec requires `<` and `==` to satisfy trichotomy, which is
exactly a linear order with decidable equality); the value type `V` is
default-constructible (`Inhabited`).
-/

inductive BTree (K V : Type) where
  | nil : BTree K V
  | node (key : K) (value : V) (left : BTree K V) (right : BTree K V) : BTree K V
deriving DecidableEq

namespace BTree

variable {K V : Type}

/-- Number of nodes in the (sub)tree. -/
def size : BTree K V → Nat
  | nil => 0
  | node _ _ l r => size l + size r + 1

/-- Membership: `hasKey t x` holds when some node of `t` stores key `x` (plain structural
membership, independent of any search strategy). -/
def hasKey [DecidableEq K] : BTree K V → K → Bool
  | nil, _ => false
  | node key _ l r, x => x == key || hasKey l x || hasKey r x

/-- In-order listing of the (key, value) pairs stored in the tree:
left subtree, the node itself, right subtree. -/
def inorder : BTree K V → List (K × V)
  | nil => []
  | node key value l r => inorder l ++ (key, value) :: inorder r

/-- Bounded keys: `allB p t` holds when every key stored in `t` satisfies the boolean predicate `p`. -/
def allB (p : K → Bool) : BTree K V → Bool
  | nil => true
  | node key _ l r => p key && allB p l && allB p r

/-- The BST ordering invariant of the spec: at every node, all keys of the
left subtree are strictly below the node's key and all keys of the right
subtree strictly above it. -/
def isBST [LinearOrder K] : BTree K V → Bool
  | nil => true
  | node key _ l r =>
      allB (fun x => decide (x < key)) l && allB (fun x => decide (key < x)) r
        && isBST l && isBST r

/-- Model of `BinaryTreeNode::contains` (src/tree.hpp:343-358), kept with its missing
fallback return: the three explicit branches produce `some _`, and the
fall-through path at the end of the function body — reachable only if a key
sorts neither equal, nor less, nor greater — is `none`.  The
`child ? child->contains(k) : false` guards and the empty-tree check of
`BinaryTree::contains` (src/tree.hpp:165-173) are the `nil` case. -/
def containsOpt [LinearOrder K] : BTree K V → K → Option Bool
  | nil, _ => some false
  | node key _ l r, k =>
      if k = key then some true
      else if k < key then containsOpt l k
      else if k > key then containsOpt r k
      else none

/-- Model of `BinaryTree::contains`: the value the program actually observes
(the fall-through path never fires, see the C9 theorem). -/
def contains [LinearOrder K] (t : BTree K V) (k : K) : Bool :=
  (containsOpt t k).getD false

/-- Model of `BinaryTreeNode::find` (src/tree.hpp:321-339) together with the root
creation of `BinaryTree::operator[]` (src/tree.hpp:154-161).  The C++
`find` mutates the tree (creating at most one missing child) and returns a
reference to the value of the node storing `k`; we return the updated tree
paired with that value.  The `nil` case covers both the null-root creation
in `operator[]` and the `new BinaryTreeNode<K, V>(k)` followed by the
recursive `find` that immediately matches the fresh node. -/
def find [LinearOrder K] [Inhabited V] : BTree K V → K → BTree K V × V
  | nil, k => (node k default nil nil, default)
  | node key value l r, k =>
      if k = key then (node key value l r, value)
      else if k < key then
        let p := find l k
        (node key value p.1 r, p.2)
      else
        let p := find r k
        (node key value l p.1, p.2)

/-- Writing `v` through the `V&` reference returned by
`BinaryTree::operator[]`: the write lands on the node that the search
path for `k` reaches (the same path `find` takes). -/
def assign [LinearOrder K] : BTree K V → K → V → BTree K V
  | nil, _, _ => nil
  | node key value l r, k, v =>
      if k = key then node key v l r
      else if k < key then node key value (assign l k v) r
      else node key value l (assign r k v)

/-- The `successor` loop of the two-child case of `BinaryTreeNode::erase`
(src/tree.hpp:302-304): starting from the left child, follow `right`
pointers while they exist; the arguments carry the key/value of the node
the cursor is at, the tree argument is that node's right subtree. -/
def predKV (k : K) (v : V) : BTree K V → K × V
  | nil => (k, v)
  | node k' v' _ r => predKV k' v' r

/-- Model of `BinaryTreeNode::erase` (src/tree.hpp:273-312) plus the null-root guard
of `BinaryTree::erase` (src/tree.hpp:178-183).  Non-matching nodes recurse
into the indicated side (the `if (left)` / `if (right)` guards are the
`nil` equation) and return themselves; a matching node with a missing
child is replaced by the other child; a matching node with two children
copies the key/value found by the `successor` loop (the in-order
predecessor) into itself and erases that key from its left subtree. -/
def erase [LinearOrder K] : BTree K V → K → BTree K V
  | nil, _ => nil
  | node key value l r, k =>
      if k < key then node key value (erase l k) r
      else if k > key then node key value l (erase r k)
      else
        match l, r with
        | nil, _ => r
        | node lk lv ll lr, nil => node lk lv ll lr
        | node lk lv ll lr, node rk rv rl rr =>
            node (predKV lk lv lr).1 (predKV lk lv lr).2
              (erase (node lk lv ll lr) (predKV lk lv lr).1)
              (node rk rv rl rr)

end BTree

/-!  The explicit-stack iterator (`BinaryTreeIterator`, src/tree.hpp:40-132).
`current` is a borrowed node pointer (`nil` = null) and `working_stack` the
ancestor stack; both are modelled by the subtrees the pointers reach. -/

structure BTIterator (K V : Type) where
  current : BTree K V
  working_stack : List (BTree K V)
deriving DecidableEq

namespace BTIterator

variable {K V : Type}

/-- Model of `BinaryTreeIterator::incr` (src/tree.hpp:86-103): while `current` is
non-null push it and descend left; then pop the stack top into `current`
(or leave it null when the stack is empty).  The descending while loop is
`pushLeft`. -/
def pushLeft : BTree K V → List (BTree K V) → List (BTree K V)
  | .nil, s => s
  | .node k v l r, s => pushLeft l (.node k v l r :: s)

def incr (it : BTIterator K V) : BTIterator K V :=
  match pushLeft it.current it.working_stack with
  | [] => ⟨.nil, []⟩
  | t :: rest => ⟨t, rest⟩

/-- The iterator constructor (src/tree.hpp:50-59): `current` starts null;
a start iterator on a non-null root sets `current` to the root and runs
`incr` once.  `endIter` is the `start = false` sentinel. -/
def beginIter (root : BTree K V) : BTIterator K V :=
  match root with
  | .nil => ⟨.nil, []⟩
  | .node k v l r => incr ⟨.node k v l r, []⟩

def endIter : BTIterator K V := ⟨.nil, []⟩

/-- The exhaustion test used by `operator!=` (src/tree.hpp:67-73):
`current == nullptr && working_stack.empty()`. -/
def atEnd (it : BTIterator K V) : Bool :=
  (match it.current with | .nil => true | .node _ _ _ _ => false)
    && it.working_stack.isEmpty

/-- Model of `BinaryTreeIterator::operator!=`: true while not both sides are
exhausted. -/
def iterNe (a b : BTIterator K V) : Bool :=
  !(atEnd a && atEnd b)

/-- Model of `BinaryTreeIterator::operator*` (src/tree.hpp:116-123): with a non-null
`current` it returns a copy of the (key, value) pair and touches nothing;
with a null `current` it throws `std::logic_error`.  Note that, contrary
to the comment above it in the source, it does NOT move `current` to the
right child. -/
def deref (it : BTIterator K V) : Except String (K × V) :=
  match it.current with
  | .nil => .error "Dereference of an invalid iterator"
  | .node k v _ _ => .ok (k, v)

/-- The `for (it = begin; it != end; ++it) { ... *it ... }` idiom, cut off
after `fuel` visits (the real loop has no bound; the fuel only truncates).
Each round checks `it != end`, dereferences, then increments. -/
def runIter : BTIterator K V → Nat → List (K × V)
  | _, 0 => []
  | it, n + 1 =>
      if iterNe it endIter then
        match deref it with
        | .ok p => p :: runIter (incr it) n
        | .error _ => []
      else []

end BTIterator

/-!  Concrete trees used to evaluate the embedding: `tInsert12` is the tree
after `t[1]; t[2];` on an empty `BinaryTree<int,int>` (values default to 0),
and `t53814` the tree after inserting keys 5, 3, 8, 1, 4 (the spec's
concrete scenario). -/

def tInsert12 : BTree Nat Nat :=
  (BTree.find ((BTree.find (BTree.nil : BTree Nat Nat) 1).1) 2).1

def t53814 : BTree Nat Nat :=
  [5, 3, 8, 1, 4].foldl (fun t k => (BTree.find t k).1) (BTree.nil : BTree Nat Nat)

/-- The tree after `t[1]; t[2] = 7;` on an empty `BinaryTree<int,int>`:
get-or-create key 1 (value defaults to 0), then get-or-create key 2 and
assign 7 through the returned reference. -/
def tRound : BTree Nat Nat :=
  BTree.assign (BTree.find ((BTree.find (BTree.nil : BTree Nat Nat) 1).1) 2).1 2 7

namespace BTree

variable {K V : Type} [LinearOrder K]

theorem allB_iff {p : K → Bool} :
    ∀ t : BTree K V, allB p t = true ↔ ∀ x, hasKey t x = true → p x = true := by
  intro t
  induction t with
  | nil => simp [allB, hasKey]
  | node key value l r ihl ihr =>
      simp only [allB, hasKey, Bool.and_eq_true, Bool.or_eq_true, beq_iff_eq, ihl, ihr]
      constructor
      · rintro ⟨⟨hk, hl⟩, hr⟩ x hx
        rcases hx with (rfl | hx) | hx
        · exact hk
        · exact hl x hx
        · exact hr x hx
      · intro h
        exact ⟨⟨h key (Or.inl (Or.inl rfl)), fun x hx => h x (Or.inl (Or.inr hx))⟩,
               fun x hx => h x (Or.inr hx)⟩

theorem isBST_node {k : K} {v : V} {l r : BTree K V} :
    isBST (node k v l r) = true ↔
      allB (fun x => decide (x < k)) l = true ∧ allB (fun x => decide (k < x)) r = true
        ∧ isBST l = true ∧ isBST r = true := by
  show (allB _ l && allB _ r && isBST l && isBST r) = true ↔ _
  simp [Bool.and_eq_true, and_assoc]

theorem hasKey_node {k x : K} {v : V} {l r : BTree K V} :
    hasKey (node k v l r) x = true ↔
      x = k ∨ hasKey l x = true ∨ hasKey r x = true := by
  show (x == k || hasKey l x || hasKey r x) = true ↔ _
  simp [Bool.or_eq_true, beq_iff_eq, or_assoc]

theorem predKV_mem :
    ∀ (r : BTree K V) (k : K) (v : V),
      (predKV k v r).1 = k ∨ hasKey r (predKV k v r).1 = true := by
  intro r
  induction r with
  | nil => intro k v; exact Or.inl rfl
  | node k' v' l' r' ihl ihr =>
      intro k v
      refine Or.inr ?_
      rcases ihr k' v' with h | h
      · simp [predKV, hasKey_node, h]
      · simp [predKV, hasKey_node, h]

theorem hasKey_predKV_node (k : K) (v : V) (l r : BTree K V) :
    hasKey (node k v l r) (predKV k v r).1 = true := by
  rcases predKV_mem r k v with h | h
  · simp [hasKey_node, h]
  · simp [hasKey_node, h]

theorem predKV_max :
    ∀ (r : BTree K V) (k : K) (v : V) (l : BTree K V),
      isBST (node k v l r) = true →
      ∀ x, hasKey (node k v l r) x = true → x ≤ (predKV k v r).1 := by
  intro r
  induction r with
  | nil =>
      intro k v l hbst x hx
      simp only [predKV]
      rcases isBST_node.mp hbst with ⟨hal, _, _, _⟩
      rcases hasKey_node.mp hx with rfl | hx | hx
      · exact le_refl x
      · exact le_of_lt (by simpa using (allB_iff l).mp hal x hx)
      · simp [hasKey] at hx
  | node k' v' l' r' ihl ihr =>
      intro k v l hbst x hx
      rcases isBST_node.mp hbst with ⟨hal, har, _, hbstr⟩
      have key_lt : ∀ y, hasKey (node k' v' l' r') y = true → k < y := by
        intro y hy
        simpa using (allB_iff (node k' v' l' r')).mp har y hy
      have hpk : k < (predKV k v (node k' v' l' r')).1 := by
        apply key_lt
        simpa [predKV] using hasKey_predKV_node k' v' l' r'
      rcases hasKey_node.mp hx with rfl | hx | hx
      · exact le_of_lt hpk
      · have hxk : x < k := by
          simpa using (allB_iff l).mp hal x hx
        exact le_of_lt (lt_trans hxk hpk)
      · have := ihr k' v' l' hbstr x hx
        simpa [predKV] using this

end BTree

namespace BTree

variable {K V : Type} [LinearOrder K]

omit [LinearOrder K] in
theorem allB_node {p : K → Bool} {k : K} {v : V} {l r : BTree K V} :
    allB p (node k v l r) = true ↔
      p k = true ∧ allB p l = true ∧ allB p r = true := by
  show (p k && allB p l && allB p r) = true ↔ _
  simp [Bool.and_eq_true, and_assoc]

theorem erase_lt {k key : K} {value : V} {l r : BTree K V} (h : k < key) :
    erase (node key value l r) k = node key value (erase l k) r := by
  rw [erase.eq_def]; simp [h]

theorem erase_gt {k key : K} {value : V} {l r : BTree K V} (h : key < k) :
    erase (node key value l r) k = node key value l (erase r k) := by
  rw [erase.eq_def]; simp [lt_asymm h, h]

theorem erase_match_nil_left {key : K} {value : V} {r : BTree K V} :
    erase (node key value nil r) key = r := by
  simp [erase, lt_irrefl]

theorem erase_match_nil_right {key : K} {value : V} {lk : K} {lv : V}
    {ll lr : BTree K V} :
    erase (node key value (node lk lv ll lr) nil) key = node lk lv ll lr := by
  simp [erase, lt_irrefl]

theorem erase_match_two {key : K} {value : V} {lk : K} {lv : V}
    {ll lr : BTree K V} {rk : K} {rv : V} {rl rr : BTree K V} :
    erase (node key value (node lk lv ll lr) (node rk rv rl rr)) key
      = node (predKV lk lv lr).1 (predKV lk lv lr).2
          (erase (node lk lv ll lr) (predKV lk lv lr).1) (node rk rv rl rr) := by
  simp [erase, lt_irrefl]

theorem allB_erase {p : K → Bool} :
    ∀ (t : BTree K V) (k : K), allB p t = true → allB p (erase t k) = true := by
  intro t
  induction t with
  | nil => intro k h; simpa [erase] using h
  | node key value l r ihl ihr =>
      intro k h
      rcases allB_node.mp h with ⟨hk, hl, hr⟩
      rcases lt_trichotomy k key with hlt | heq | hgt
      · rw [erase_lt hlt]; exact allB_node.mpr ⟨hk, ihl k hl, hr⟩
      · subst heq
        cases l with
        | nil => rw [erase_match_nil_left]; exact hr
        | node lk lv ll lr =>
            cases r with
            | nil => rw [erase_match_nil_right]; exact hl
            | node rk rv rl rr =>
                rw [erase_match_two]
                exact allB_node.mpr
                  ⟨(allB_iff _).mp hl _ (hasKey_predKV_node lk lv ll lr),
                   ihl _ hl, hr⟩
      · rw [erase_gt hgt]; exact allB_node.mpr ⟨hk, hl, ihr k hr⟩

theorem hasKey_erase :
    ∀ (t : BTree K V) (k : K), isBST t = true →
      ∀ x, (hasKey (erase t k) x = true ↔ hasKey t x = true ∧ x ≠ k) := by
  intro t
  induction t with
  | nil => intro k _ x; simp [erase, hasKey]
  | node key value l r ihl ihr =>
      intro k hbst x
      rcases isBST_node.mp hbst with ⟨hal, har, hbl, hbr⟩
      have hlx : ∀ y, hasKey l y = true → y < key := fun y hy => by
        simpa using (allB_iff l).mp hal y hy
      have hrx : ∀ y, hasKey r y = true → key < y := fun y hy => by
        simpa using (allB_iff r).mp har y hy
      rcases lt_trichotomy k key with hlt | heq | hgt
      · rw [erase_lt hlt]
        constructor
        · intro h
          rcases hasKey_node.mp h with rfl | h | h
          · exact ⟨hasKey_node.mpr (Or.inl rfl), ne_of_gt hlt⟩
          · rcases (ihl k hbl x).mp h with ⟨hmem, hne⟩
            exact ⟨hasKey_node.mpr (Or.inr (Or.inl hmem)), hne⟩
          · exact ⟨hasKey_node.mpr (Or.inr (Or.inr h)),
              ne_of_gt (lt_trans hlt (hrx x h))⟩
        · rintro ⟨h, hne⟩
          rcases hasKey_node.mp h with rfl | h | h
          · exact hasKey_node.mpr (Or.inl rfl)
          · exact hasKey_node.mpr (Or.inr (Or.inl ((ihl k hbl x).mpr ⟨h, hne⟩)))
          · exact hasKey_node.mpr (Or.inr (Or.inr h))
      · subst heq
        cases l with
        | nil =>
            rw [erase_match_nil_left]
            constructor
            · intro h
              exact ⟨hasKey_node.mpr (Or.inr (Or.inr h)), ne_of_gt (hrx x h)⟩
            · rintro ⟨h, hne⟩
              rcases hasKey_node.mp h with rfl | h | h
              · exact absurd rfl hne
              · simp [hasKey] at h
              · exact h
        | node lk lv ll lr =>
            cases r with
            | nil =>
                rw [erase_match_nil_right]
                constructor
                · intro h
                  exact ⟨hasKey_node.mpr (Or.inr (Or.inl h)), ne_of_lt (hlx x h)⟩
                · rintro ⟨h, hne⟩
                  rcases hasKey_node.mp h with rfl | h | h
                  · exact absurd rfl hne
                  · exact h
                  · simp [hasKey] at h
            | node rk rv rl rr =>
                rw [erase_match_two]
                have hKL : hasKey (node lk lv ll lr) (predKV lk lv lr).1 = true :=
                  hasKey_predKV_node lk lv ll lr
                have hpklt : (predKV lk lv lr).1 < k := hlx _ hKL
                constructor
                · intro h
                  rcases hasKey_node.mp h with rfl | h | h
                  · exact ⟨hasKey_node.mpr (Or.inr (Or.inl hKL)), ne_of_lt hpklt⟩
                  · rcases (ihl _ hbl x).mp h with ⟨hmem, _⟩
                    exact ⟨hasKey_node.mpr (Or.inr (Or.inl hmem)), ne_of_lt (hlx x hmem)⟩
                  · exact ⟨hasKey_node.mpr (Or.inr (Or.inr h)), ne_of_gt (hrx x h)⟩
                · rintro ⟨h, hne⟩
                  rcases hasKey_node.mp h with rfl | h | h
                  · exact absurd rfl hne
                  · by_cases hpk : x = (predKV lk lv lr).1
                    · exact hasKey_node.mpr (Or.inl hpk)
                    · exact hasKey_node.mpr
                        (Or.inr (Or.inl ((ihl _ hbl x).mpr ⟨h, hpk⟩)))
                  · exact hasKey_node.mpr (Or.inr (Or.inr h))
      · rw [erase_gt hgt]
        constructor
        · intro h
          rcases hasKey_node.mp h with rfl | h | h
          · exact ⟨hasKey_node.mpr (Or.inl rfl), ne_of_lt hgt⟩
          · exact ⟨hasKey_node.mpr (Or.inr (Or.inl h)),
              ne_of_lt (lt_trans (hlx x h) hgt)⟩
          · rcases (ihr k hbr x).mp h with ⟨hmem, hne⟩
            exact ⟨hasKey_node.mpr (Or.inr (Or.inr hmem)), hne⟩
        · rintro ⟨h, hne⟩
          rcases hasKey_node.mp h with rfl | h | h
          · exact hasKey_node.mpr (Or.inl rfl)
          · exact hasKey_node.mpr (Or.inr (Or.inl h))
          · exact hasKey_node.mpr (Or.inr (Or.inr ((ihr k hbr x).mpr ⟨h, hne⟩)))

theorem isBST_erase :
    ∀ (t : BTree K V) (k : K), isBST t = true → isBST (erase t k) = true := by
  intro t
  induction t with
  | nil => intro k h; simpa [erase] using h
  | node key value l r ihl ihr =>
      intro k hbst
      rcases isBST_node.mp hbst with ⟨hal, har, hbl, hbr⟩
      rcases lt_trichotomy k key with hlt | heq | hgt
      · rw [erase_lt hlt]
        exact isBST_node.mpr ⟨allB_erase l k hal, har, ihl k hbl, hbr⟩
      · subst heq
        cases l with
        | nil => rw [erase_match_nil_left]; exact hbr
        | node lk lv ll lr =>
            cases r with
            | nil => rw [erase_match_nil_right]; exact hbl
            | node rk rv rl rr =>
                rw [erase_match_two]
                have hKL : hasKey (node lk lv ll lr) (predKV lk lv lr).1 = true :=
                  hasKey_predKV_node lk lv ll lr
                have hpklt : (predKV lk lv lr).1 < k := by
                  simpa using (allB_iff _).mp hal _ hKL
                refine isBST_node.mpr ⟨?_, ?_, ihl _ hbl, hbr⟩
                · refine (allB_iff _).mpr ?_
                  intro x hx
                  rcases (hasKey_erase _ _ hbl x).mp hx with ⟨hmem, hne⟩
                  have hle := predKV_max lr lk lv ll hbl x hmem
                  simpa using lt_of_le_of_ne hle hne
                · refine (allB_iff _).mpr ?_
                  intro x hx
                  have hkx : k < x := by
                    simpa using (allB_iff _).mp har x hx
                  simpa using lt_trans hpklt hkx

      · rw [erase_gt hgt]
        exact isBST_node.mpr ⟨hal, allB_erase r k har, hbl, ihr k hbr⟩

end BTree

namespace BTree

variable {K V : Type} [LinearOrder K]

theorem containsOpt_node_eq {k key : K} {value : V} {l r : BTree K V} (h : k = key) :
    containsOpt (node key value l r) k = some true := by
  simp [containsOpt, h]

theorem containsOpt_node_lt {k key : K} {value : V} {l r : BTree K V} (h : k < key) :
    containsOpt (node key value l r) k = containsOpt l k := by
  simp [containsOpt, ne_of_lt h, h]

theorem containsOpt_node_gt {k key : K} {value : V} {l r : BTree K V} (h : key < k) :
    containsOpt (node key value l r) k = containsOpt r k := by
  simp [containsOpt, ne_of_gt h, lt_asymm h, h]

theorem contains_nil (k : K) : contains (nil : BTree K V) k = false := rfl

theorem contains_eq (k key : K) (value : V) (l r : BTree K V) (h : k = key) :
    contains (node key value l r) k = true := by
  simp [contains, containsOpt_node_eq h]

theorem contains_lt {k key : K} {value : V} {l r : BTree K V} (h : k < key) :
    contains (node key value l r) k = contains l k := by
  simp [contains, containsOpt_node_lt h]

theorem contains_gt {k key : K} {value : V} {l r : BTree K V} (h : key < k) :
    contains (node key value l r) k = contains r k := by
  simp [contains, containsOpt_node_gt h]

theorem containsOpt_total :
    ∀ (t : BTree K V) (k : K), containsOpt t k = some (contains t k) := by
  intro t
  induction t with
  | nil => intro k; rfl
  | node key value l r ihl ihr =>
      intro k
      rcases lt_trichotomy k key with hlt | heq | hgt
      · rw [containsOpt_node_lt hlt, contains_lt hlt]; exact ihl k
      · rw [containsOpt_node_eq heq, contains_eq k key value l r heq]
      · rw [containsOpt_node_gt hgt, contains_gt hgt]; exact ihr k

theorem contains_eq_hasKey :
    ∀ (t : BTree K V) (k : K), isBST t = true → contains t k = hasKey t k := by
  intro t
  induction t with
  | nil => intro k _; rfl
  | node key value l r ihl ihr =>
      intro k hbst
      rcases isBST_node.mp hbst with ⟨hal, har, hbl, hbr⟩
      have hlx : ∀ y, hasKey l y = true → y < key := fun y hy => by
        simpa using (allB_iff l).mp hal y hy
      have hrx : ∀ y, hasKey r y = true → key < y := fun y hy => by
        simpa using (allB_iff r).mp har y hy
      rcases lt_trichotomy k key with hlt | heq | hgt
      · rw [contains_lt hlt, ihl k hbl]
        have h1 : (k == key) = false := by simp [ne_of_lt hlt]
        have h2 : hasKey r k = false := by
          cases hh : hasKey r k with
          | false => rfl
          | true => exact absurd (hrx k hh) (lt_asymm hlt)
        show hasKey l k = (k == key || hasKey l k || hasKey r k)
        rw [h1, h2]
        simp
      · rw [contains_eq k key value l r heq]
        symm
        exact hasKey_node.mpr (Or.inl heq)
      · rw [contains_gt hgt, ihr k hbr]
        have h1 : (k == key) = false := by simp [ne_of_gt hgt]
        have h2 : hasKey l k = false := by
          cases hh : hasKey l k with
          | false => rfl
          | true => exact absurd (hlx k hh) (lt_asymm hgt)
        show hasKey r k = (k == key || hasKey l k || hasKey r k)
        rw [h1, h2]
        simp

theorem erase_of_not_contains :
    ∀ (t : BTree K V) (k : K), contains t k = false → erase t k = t := by
  intro t
  induction t with
  | nil => intro k _; rfl
  | node key value l r ihl ihr =>
      intro k h
      rcases lt_trichotomy k key with hlt | heq | hgt
      · rw [contains_lt hlt] at h
        rw [erase_lt hlt, ihl k h]
      · rw [contains_eq k key value l r heq] at h
        exact absurd h (by simp)
      · rw [contains_gt hgt] at h
        rw [erase_gt hgt, ihr k h]

theorem find_eq (k key : K) (value : V) (l r : BTree K V) [Inhabited V] (h : k = key) :
    find (node key value l r) k = (node key value l r, value) := by
  simp [find, h]

theorem find_lt {k key : K} {value : V} {l r : BTree K V} [Inhabited V] (h : k < key) :
    find (node key value l r) k = (node key value (find l k).1 r, (find l k).2) := by
  simp [find, ne_of_lt h, h]

theorem find_gt {k key : K} {value : V} {l r : BTree K V} [Inhabited V] (h : key < k) :
    find (node key value l r) k = (node key value l (find r k).1, (find r k).2) := by
  simp [find, ne_of_gt h, lt_asymm h, h]

theorem allB_find [Inhabited V] {p : K → Bool} :
    ∀ (t : BTree K V) (k : K), allB p t = true → p k = true →
      allB p (find t k).1 = true := by
  intro t
  induction t with
  | nil => intro k _ hk; simp [find, allB, hk]
  | node key value l r ihl ihr =>
      intro k h hk
      rcases allB_node.mp h with ⟨hkey, hl, hr⟩
      rcases lt_trichotomy k key with hlt | heq | hgt
      · rw [find_lt hlt]; exact allB_node.mpr ⟨hkey, ihl k hl hk, hr⟩
      · rw [find_eq k key value l r heq]; exact h
      · rw [find_gt hgt]; exact allB_node.mpr ⟨hkey, hl, ihr k hr hk⟩

theorem isBST_find [Inhabited V] :
    ∀ (t : BTree K V) (k : K), isBST t = true → isBST (find t k).1 = true := by
  intro t
  induction t with
  | nil => intro k _; simp [find, isBST, allB]
  | node key value l r ihl ihr =>
      intro k hbst
      rcases isBST_node.mp hbst with ⟨hal, har, hbl, hbr⟩
      rcases lt_trichotomy k key with hlt | heq | hgt
      · rw [find_lt hlt]
        exact isBST_node.mpr ⟨allB_find l k hal (by simpa using hlt), har, ihl k hbl, hbr⟩
      · rw [find_eq k key value l r heq]; exact hbst
      · rw [find_gt hgt]
        exact isBST_node.mpr ⟨hal, allB_find r k har (by simpa using hgt), hbl, ihr k hbr⟩

theorem find_of_contains [Inhabited V] :
    ∀ (t : BTree K V) (k : K), contains t k = true → (find t k).1 = t := by
  intro t
  induction t with
  | nil => intro k h; exact absurd h (by simp [contains, containsOpt])
  | node key value l r ihl ihr =>
      intro k h
      rcases lt_trichotomy k key with hlt | heq | hgt
      · rw [contains_lt hlt] at h
        rw [find_lt hlt]
        simp [ihl k h]
      · rw [find_eq k key value l r heq]
      · rw [contains_gt hgt] at h
        rw [find_gt hgt]
        simp [ihr k h]

theorem size_find [Inhabited V] :
    ∀ (t : BTree K V) (k : K), contains t k = false →
      size (find t k).1 = size t + 1 := by
  intro t
  induction t with
  | nil => intro k _; simp [find, size]
  | node key value l r ihl ihr =>
      intro k h
      rcases lt_trichotomy k key with hlt | heq | hgt
      · rw [contains_lt hlt] at h
        rw [find_lt hlt]
        show size (find l k).1 + size r + 1 = size l + size r + 1 + 1
        rw [ihl k h]
        omega
      · rw [contains_eq k key value l r heq] at h
        exact absurd h (by simp)
      · rw [contains_gt hgt] at h
        rw [find_gt hgt]
        show size l + size (find r k).1 + 1 = size l + size r + 1 + 1
        rw [ihr k h]
        omega

theorem contains_find [Inhabited V] :
    ∀ (t : BTree K V) (k : K), contains (find t k).1 k = true := by
  intro t
  induction t with
  | nil => intro k; simp [find, contains, containsOpt]
  | node key value l r ihl ihr =>
      intro k
      rcases lt_trichotomy k key with hlt | heq | hgt
      · rw [find_lt hlt]
        rw [contains_lt hlt]
        exact ihl k
      · rw [find_eq k key value l r heq]
        exact contains_eq k key value l r heq
      · rw [find_gt hgt]
        rw [contains_gt hgt]
        exact ihr k

end BTree

namespace BTree

variable {K V : Type} [LinearOrder K]

theorem assign_node_eq {k key : K} {v value : V} {l r : BTree K V} (h : k = key) :
    assign (node key value l r) k v = node key v l r := by
  simp [assign, h]

theorem assign_node_lt {k key : K} {v value : V} {l r : BTree K V} (h : k < key) :
    assign (node key value l r) k v = node key value (assign l k v) r := by
  simp [assign, ne_of_lt h, h]

theorem assign_node_gt {k key : K} {v value : V} {l r : BTree K V} (h : key < k) :
    assign (node key value l r) k v = node key value l (assign r k v) := by
  simp [assign, ne_of_gt h, lt_asymm h]

theorem containsOpt_ignores_value (x key : K) (v value : V) (l r : BTree K V) :
    containsOpt (node key v l r) x = containsOpt (node key value l r) x := by
  rcases lt_trichotomy x key with hlt | heq | hgt
  · rw [containsOpt_node_lt hlt, containsOpt_node_lt hlt]
  · rw [containsOpt_node_eq heq, containsOpt_node_eq heq]
  · rw [containsOpt_node_gt hgt, containsOpt_node_gt hgt]

theorem containsOpt_assign :
    ∀ (t : BTree K V) (k : K) (v : V) (x : K),
      containsOpt (assign t k v) x = containsOpt t x := by
  intro t
  induction t with
  | nil => intro k v x; rfl
  | node key value l r ihl ihr =>
      intro k v x
      rcases lt_trichotomy k key with hlt | heq | hgt
      · rw [assign_node_lt hlt]
        rcases lt_trichotomy x key with hx | hx | hx
        · rw [containsOpt_node_lt hx, containsOpt_node_lt hx]; exact ihl k v x
        · rw [containsOpt_node_eq hx, containsOpt_node_eq hx]
        · rw [containsOpt_node_gt hx, containsOpt_node_gt hx]
      · rw [assign_node_eq heq]
        exact containsOpt_ignores_value x key v value l r
      · rw [assign_node_gt hgt]
        rcases lt_trichotomy x key with hx | hx | hx
        · rw [containsOpt_node_lt hx, containsOpt_node_lt hx]
        · rw [containsOpt_node_eq hx, containsOpt_node_eq hx]
        · rw [containsOpt_node_gt hx, containsOpt_node_gt hx]; exact ihr k v x

theorem contains_assign (t : BTree K V) (k : K) (v : V) (x : K) :
    contains (assign t k v) x = contains t x := by
  simp [contains, containsOpt_assign]

theorem allB_assign {p : K → Bool} :
    ∀ (t : BTree K V) (k : K) (v : V), allB p (assign t k v) = allB p t := by
  intro t
  induction t with
  | nil => intro k v; rfl
  | node key value l r ihl ihr =>
      intro k v
      rcases lt_trichotomy k key with hlt | heq | hgt
      · rw [assign_node_lt hlt]
        show (p key && allB p (assign l k v) && allB p r)
          = (p key && allB p l && allB p r)
        rw [ihl k v]
      · rw [assign_node_eq heq]
        show (p key && allB p l && allB p r) = (p key && allB p l && allB p r)
        rfl
      · rw [assign_node_gt hgt]
        show (p key && allB p l && allB p (assign r k v))
          = (p key && allB p l && allB p r)
        rw [ihr k v]

theorem isBST_assign :
    ∀ (t : BTree K V) (k : K) (v : V), isBST t = true → isBST (assign t k v) = true := by
  intro t
  induction t with
  | nil => intro k v h; exact h
  | node key value l r ihl ihr =>
      intro k v hbst
      rcases isBST_node.mp hbst with ⟨hal, har, hbl, hbr⟩
      rcases lt_trichotomy k key with hlt | heq | hgt
      · rw [assign_node_lt hlt]
        refine isBST_node.mpr ⟨?_, har, ihl k v hbl, hbr⟩
        rw [allB_assign l k v]; exact hal
      · rw [assign_node_eq heq]
        exact isBST_node.mpr ⟨hal, har, hbl, hbr⟩
      · rw [assign_node_gt hgt]
        refine isBST_node.mpr ⟨hal, ?_, hbl, ihr k v hbr⟩
        rw [allB_assign r k v]; exact har

theorem mem_inorder_assign_find [Inhabited V] :
    ∀ (t : BTree K V) (k : K) (v : V),
      (k, v) ∈ inorder (assign (find t k).1 k v) := by
  intro t
  induction t with
  | nil =>
      intro k v
      simp [find, assign, inorder]
  | node key value l r ihl ihr =>
      intro k v
      rcases lt_trichotomy k key with hlt | heq | hgt
      · rw [find_lt hlt]
        simp only
        rw [assign_node_lt hlt]
        simp only [inorder, List.mem_append]
        exact Or.inl (ihl k v)
      · rw [find_eq k key value l r heq]
        simp only
        rw [assign_node_eq heq]
        simp [inorder, heq]
      · rw [find_gt hgt]
        simp only
        rw [assign_node_gt hgt]
        simp only [inorder, List.mem_append, List.mem_cons]
        exact Or.inr (Or.inr (ihr k v))

theorem hasKey_iff_inorder :
    ∀ (t : BTree K V) (x : K),
      hasKey t x = true ↔ ∃ v, (x, v) ∈ inorder t := by
  intro t
  induction t with
  | nil => intro x; simp [hasKey, inorder]
  | node key value l r ihl ihr =>
      intro x
      rw [hasKey_node]
      simp only [inorder, List.mem_append, List.mem_cons]
      constructor
      · rintro (rfl | h | h)
        · exact ⟨value, Or.inr (Or.inl rfl)⟩
        · rcases (ihl x).mp h with ⟨v, hv⟩
          exact ⟨v, Or.inl hv⟩
        · rcases (ihr x).mp h with ⟨v, hv⟩
          exact ⟨v, Or.inr (Or.inr hv)⟩
      · rintro ⟨v, hv | hv | hv⟩
        · exact Or.inr (Or.inl ((ihl x).mpr ⟨v, hv⟩))
        · cases hv
          exact Or.inl rfl
        · exact Or.inr (Or.inr ((ihr x).mpr ⟨v, hv⟩))

end BTree

/-- Claim C1 fails on the code: iterating from `begin()` with the source's
`operator*` / `operator++` does not yield the stored keys in strictly
ascending order, because `operator*` never moves `current` to the right
child (contrary to the comment above it in the source).  On the tree
holding keys 1 and 2 (key 2 is stored, as the in-order listing shows), the
first three loop iterations all visit key 1. -/
theorem iteration_repeats_first_key_on_two_keys :
    (BTree.inorder tInsert12).map Prod.fst = [1, 2]
    ∧ BTIterator.runIter (BTIterator.beginIter tInsert12) 3
        = [(1, 0), (1, 0), (1, 0)] := by
  constructor <;> rfl

/-- Claim C2 fails on the code: `operator*` does not set `current` to the
right child, so after the visit-plus-advance step the iterator is back at
the node it just visited.  On the tree holding keys 1 and 2 the start
iterator dereferences to (1, 0), and one `operator++` returns the iterator
to exactly the same state, so `current` after the step IS the node just
visited. -/
theorem increment_revisits_node_after_deref :
    BTIterator.deref (BTIterator.beginIter tInsert12) = Except.ok (1, 0)
    ∧ BTIterator.incr (BTIterator.beginIter tInsert12) = BTIterator.beginIter tInsert12 := by
  constructor <;> rfl

/-- Claim C3: erasing a key whose node has both children copies the
in-order predecessor's key and value (found by descending as far right as
possible within the left subtree, the `successor` loop) into the matching
node — the node itself stays in place — and then recursively erases the
predecessor's key from the left subtree; and on a BST the resulting tree
stores exactly the previous keys minus the erased one. -/
theorem erase_two_child_copies_predecessor {K V : Type} [LinearOrder K] :
    (∀ (k : K) (v : V) (lk : K) (lv : V) (ll lr : BTree K V)
        (rk : K) (rv : V) (rl rr : BTree K V),
        BTree.erase (BTree.node k v (BTree.node lk lv ll lr) (BTree.node rk rv rl rr)) k
          = BTree.node (BTree.predKV lk lv lr).1 (BTree.predKV lk lv lr).2
              (BTree.erase (BTree.node lk lv ll lr) (BTree.predKV lk lv lr).1)
              (BTree.node rk rv rl rr))
    ∧ (∀ (t : BTree K V) (k x : K), BTree.isBST t = true →
        (BTree.hasKey (BTree.erase t k) x = true ↔ BTree.hasKey t x = true ∧ x ≠ k)) :=
  ⟨fun _ _ _ _ _ _ _ _ _ _ => BTree.erase_match_two,
   fun t k x h => BTree.hasKey_erase t k h x⟩

theorem erase_two_child_copies_predecessor_witness :
    BTree.isBST t53814 = true
    ∧ (BTree.hasKey (BTree.erase t53814 5) 4 = true
        ↔ BTree.hasKey t53814 4 = true ∧ (4 : Nat) ≠ 5) :=
  ⟨by decide, erase_two_child_copies_predecessor.2 t53814 5 4 (by decide)⟩

/-- Claim C4: the BST ordering invariant holds for the empty tree and is
preserved by every public operation: get-or-create (`operator[]` /
`find`), assignment through the returned reference, and `erase`
(`contains` does not mutate the tree at all in the embedding). -/
theorem bst_invariant_preserved {K V : Type} [LinearOrder K] [Inhabited V] :
    BTree.isBST (BTree.nil : BTree K V) = true
    ∧ (∀ (t : BTree K V) (k : K),
        BTree.isBST t = true → BTree.isBST (BTree.find t k).1 = true)
    ∧ (∀ (t : BTree K V) (k : K) (v : V),
        BTree.isBST t = true → BTree.isBST (BTree.assign t k v) = true)
    ∧ (∀ (t : BTree K V) (k : K),
        BTree.isBST t = true → BTree.isBST (BTree.erase t k) = true) :=
  ⟨rfl, fun t k h => BTree.isBST_find t k h,
   fun t k v h => BTree.isBST_assign t k v h,
   fun t k h => BTree.isBST_erase t k h⟩

theorem bst_invariant_preserved_witness :
    BTree.isBST (BTree.erase t53814 5) = true :=
  bst_invariant_preserved.2.2.2 t53814 5 (by decide)

/-- Claim C5: on a BST, after `erase(k)` the key `k` is no longer reported
by `contains`, no longer appears in the in-order traversal, and erasing
`k` a second time returns the same tree (idempotence). -/
theorem erase_removes_key_and_idempotent {K V : Type} [LinearOrder K] :
    ∀ (t : BTree K V) (k : K), BTree.isBST t = true →
      BTree.contains (BTree.erase t k) k = false
      ∧ (∀ p : K × V, p ∈ BTree.inorder (BTree.erase t k) → p.1 ≠ k)
      ∧ BTree.erase (BTree.erase t k) k = BTree.erase t k := by
  intro t k h
  have hbst' := BTree.isBST_erase t k h
  have hkey : BTree.hasKey (BTree.erase t k) k = false := by
    cases hh : BTree.hasKey (BTree.erase t k) k with
    | false => rfl
    | true =>
        rcases (BTree.hasKey_erase t k h k).mp hh with ⟨_, hne⟩
        exact absurd rfl hne
  have hcont : BTree.contains (BTree.erase t k) k = false := by
    rw [BTree.contains_eq_hasKey _ k hbst', hkey]
  refine ⟨hcont, ?_, BTree.erase_of_not_contains _ k hcont⟩
  rintro ⟨x, v⟩ hp hxk
  dsimp only at hxk
  rw [hxk] at hp
  have hmem : BTree.hasKey (BTree.erase t k) k = true :=
    (BTree.hasKey_iff_inorder _ k).mpr ⟨v, hp⟩
  rw [hkey] at hmem
  simp at hmem

theorem erase_removes_key_and_idempotent_witness :
    BTree.contains (BTree.erase t53814 5) 5 = false
    ∧ BTree.erase (BTree.erase t53814 5) 5 = BTree.erase t53814 5 :=
  ⟨(erase_removes_key_and_idempotent t53814 5 (by decide)).1,
   (erase_removes_key_and_idempotent t53814 5 (by decide)).2.2⟩

/-- Claim C6: erasing a key the tree does not contain is a no-op, not an
error: the tree is structurally unchanged, hence the traversal output and
the `contains` answer for every key are unchanged. -/
theorem erase_absent_key_noop {K V : Type} [LinearOrder K] :
    ∀ (t : BTree K V) (k : K), BTree.contains t k = false →
      BTree.erase t k = t
      ∧ BTree.inorder (BTree.erase t k) = BTree.inorder t
      ∧ (∀ x, BTree.contains (BTree.erase t k) x = BTree.contains t x) := by
  intro t k h
  have he := BTree.erase_of_not_contains t k h
  exact ⟨he, by rw [he], fun x => by rw [he]⟩

theorem erase_absent_key_noop_witness :
    BTree.erase t53814 7 = t53814 :=
  (erase_absent_key_noop t53814 7 (by decide)).1

/-- Claim C7 fails on the code: after `t[1]; t[2] = 7;` the pair (2, 7)
is stored (`contains(2)` is true and (2, 7) is in the tree's content),
but the program's traversal — the begin/end iterator loop — never yields
it: because `operator*` never moves `current` to the right child, every
visited pair, at every cutoff of the non-terminating loop, is (1, 0).
So "a full traversal yields the pair (k, v)" is false of the code for
k = 2, v = 7 (same slip as C1/C2; the source's own comment at
src/tree.hpp:111-115 requires the right-child move). -/
theorem round_trip_traversal_never_yields_assigned_pair :
    BTree.contains tRound 2 = true
    ∧ (2, 7) ∈ BTree.inorder tRound
    ∧ ((2, 7) : Nat × Nat) ≠ (1, 0)
    ∧ ∀ (n : Nat) (p : Nat × Nat),
        p ∈ BTIterator.runIter (BTIterator.beginIter tRound) n → p = (1, 0) := by
  refine ⟨by decide, by decide, by decide, ?_⟩
  have hstep : ∀ m, BTIterator.runIter (BTIterator.beginIter tRound) (m + 1)
      = (1, 0) :: BTIterator.runIter (BTIterator.beginIter tRound) m :=
    fun m => rfl
  intro n
  induction n with
  | zero => intro p hp; cases hp
  | succ m ih =>
      intro p hp
      rw [hstep m] at hp
      rcases List.mem_cons.mp hp with h | h
      · exact h
      · exact ih p h

theorem round_trip_traversal_never_yields_assigned_pair_witness :
    ((1, 0) : Nat × Nat) ∈ BTIterator.runIter (BTIterator.beginIter tRound) 3
    ∧ ((1, 0) : Nat × Nat) = (1, 0) :=
  ⟨by decide,
   round_trip_traversal_never_yields_assigned_pair.2.2.2 3 (1, 0) (by decide)⟩

/-- Claim C8: dereferencing returns a copy of the current node's
(key, value) pair when `current` is non-null, and signals the
invalid-state logic error exactly when `current` is null; the failing
dereference mutates nothing (in the embedding `deref` is a pure function
of the iterator and returns no modified state). -/
theorem deref_copy_or_invalid_error {K V : Type} :
    ∀ (it : BTIterator K V),
      (∀ (k : K) (v : V) (l r : BTree K V),
        it.current = BTree.node k v l r → BTIterator.deref it = Except.ok (k, v))
      ∧ (it.current = BTree.nil ↔
          BTIterator.deref it = Except.error "Dereference of an invalid iterator") := by
  intro it
  obtain ⟨c, s⟩ := it
  cases c with
  | nil =>
      refine ⟨?_, by simp [BTIterator.deref]⟩
      intro k v l r h
      cases h
  | node k v l r =>
      refine ⟨?_, ?_⟩
      · intro k' v' l' r' h
        cases h
        rfl
      · constructor
        · intro h; cases h
        · intro h; simp [BTIterator.deref] at h

theorem deref_copy_or_invalid_error_witness :
    BTIterator.deref (⟨BTree.node 1 0 BTree.nil BTree.nil, []⟩ : BTIterator Nat Nat)
        = Except.ok (1, 0)
    ∧ BTIterator.deref (⟨BTree.nil, []⟩ : BTIterator Nat Nat)
        = Except.error "Dereference of an invalid iterator" :=
  ⟨(deref_copy_or_invalid_error _).1 1 0 _ _ rfl,
   (deref_copy_or_invalid_error _).2.mp rfl⟩

/-- Claim C9: under trichotomy of the key order (the `LinearOrder`
hypothesis), `Node::contains` is total: its three explicit branches always
produce an answer, so the branch-exhausted fall-through path (`none` in
the embedding, the missing fallback return in the source) is unreachable;
the answer is `true` exactly on a key match (on a BST, exactly when the
key is stored) and `false` when a required child is absent. -/
theorem contains_total_under_trichotomy {K V : Type} [LinearOrder K] :
    ∀ (t : BTree K V) (k : K),
      BTree.containsOpt t k = some (BTree.contains t k)
      ∧ (BTree.isBST t = true →
          (BTree.contains t k = true ↔ BTree.hasKey t k = true)) := by
  intro t k
  refine ⟨BTree.containsOpt_total t k, fun h => ?_⟩
  rw [BTree.contains_eq_hasKey t k h]

theorem contains_total_under_trichotomy_witness :
    BTree.containsOpt t53814 5 = some (BTree.contains t53814 5)
    ∧ (BTree.contains t53814 5 = true ↔ BTree.hasKey t53814 5 = true) :=
  ⟨(contains_total_under_trichotomy t53814 5).1,
   (contains_total_under_trichotomy t53814 5).2 (by decide)⟩

/-- Claim C10: for an iterator in the exhausted state (`current` null and
the ancestor stack empty), `operator++` / `incr` raises no error and
leaves the iterator exhausted: the `while` loop does not run, the stack is
empty, and `current` is reassigned null, so exhaustion is an absorbing
state of the step function. -/
theorem incr_exhausted_absorbing {K V : Type} :
    ∀ (it : BTIterator K V),
      it.current = BTree.nil → it.working_stack = [] →
        BTIterator.incr it = it := by
  intro it h1 h2
  obtain ⟨c, s⟩ := it
  dsimp only at h1 h2
  subst h1
  subst h2
  rfl

theorem incr_exhausted_absorbing_witness :
    BTIterator.incr (BTIterator.endIter : BTIterator Nat Nat) = BTIterator.endIter :=
  incr_exhausted_absorbing BTIterator.endIter rfl rfl
